import Mathlib

/-!
Verification of the Swagelok UNSPSC extraction platform.

The repository contains three revisions of a Streamlit scraper
(src/up_app.py, src/app.py, src/Last_app.py).  The core logic — the
UNSPSC/part field resolver, the record processor, the batch checkpoint
store and the job orchestrator of up_app.py, plus the sequential row
processor of Last_app.py — is embedded below as executable Lean
functions.  Strings are modelled as lists of characters (Lean Str
abbreviation); the HTML/DOM parsing primitive is an external
collaborator, so a fetched page is represented by its raw text together
with the list of (already text-extracted, whitespace-stripped) table-row
cells that BeautifulSoup would produce.  Python regular expressions used
by the source are embedded as explicit character scanners with the same
matching semantics on the inputs that reach them.
-/

namespace Swagelok

/-- Python strings are modelled as lists of characters. -/
abbrev Str := List Char

/-- ASCII digit test, the model of Python str.isdigit on the inputs at hand. -/
def isDigitC (c : Char) : Bool := 48 ≤ c.toNat && c.toNat ≤ 57

/-- ASCII letter test, the model of Python str.isalpha on the inputs at hand. -/
def isAlphaC (c : Char) : Bool :=
  (65 ≤ c.toNat && c.toNat ≤ 90) || (97 ≤ c.toNat && c.toNat ≤ 122)

/-- ASCII lower-casing, the model of Python str.lower on the inputs at hand. -/
def toLowerA (c : Char) : Char :=
  if 65 ≤ c.toNat && c.toNat ≤ 90 then Char.ofNat (c.toNat + 32) else c

/-- ASCII upper-casing, the model of Python str.upper on the inputs at hand. -/
def toUpperA (c : Char) : Char :=
  if 97 ≤ c.toNat && c.toNat ≤ 122 then Char.ofNat (c.toNat - 32) else c

/-- Whitespace class of the regex shorthand for whitespace and of str.strip. -/
def isSpaceC (c : Char) : Bool :=
  c == ' ' || c == '\t' || c == '\n' || c == '\r' || c.toNat == 11 || c.toNat == 12

/-- Does the second list start with the first one (exact characters)? -/
def startsWithL : Str → Str → Bool
  | [], _ => true
  | _ :: _, [] => false
  | a :: xs, b :: ys => a == b && startsWithL xs ys

/-- Does the second list end with the first one? -/
def endsWithL (suf s : Str) : Bool := startsWithL suf.reverse s.reverse

/-- Substring containment (Python in-operator on str). -/
def containsSub (needle : Str) : Str → Bool
  | [] => startsWithL needle []
  | c :: cs => startsWithL needle (c :: cs) || containsSub needle cs

/-- Python str.strip: drop leading and trailing whitespace. -/
def stripWs (s : Str) : Str :=
  ((s.dropWhile isSpaceC).reverse.dropWhile isSpaceC).reverse

/-- Consume a case-insensitive literal at the head, returning the rest. -/
def matchLitCI : Str → Str → Option Str
  | [], s => some s
  | _ :: _, [] => none
  | p :: ps, c :: cs => if toLowerA c == toLowerA p then matchLitCI ps cs else none

/-- Generic regex-search driver: try a matcher at every position left to
right, returning the first success (the model of re.search). -/
def searchOpt {α : Type} (f : Str → Option α) : Str → Option α
  | [] => f []
  | c :: cs =>
    match f (c :: cs) with
    | some a => some a
    | none => searchOpt f cs

/-- Decimal digits of a natural number, most significant first. -/
def natToStrAux : Nat → Nat → Str
  | 0, _ => []
  | fuel + 1, n =>
    if n < 10 then [Char.ofNat (48 + n)]
    else natToStrAux fuel (n / 10) ++ [Char.ofNat (48 + n % 10)]

/-- The model of Python str applied to a nonnegative int. -/
def natToStr (n : Nat) : Str := natToStrAux (n + 1) n

/-- Python str.replace: replace all non-overlapping occurrences left to right. -/
def replaceAllAux (pat rep : Str) : Nat → Str → Str
  | 0, s => s
  | _ + 1, [] => []
  | fuel + 1, c :: cs =>
    if startsWithL pat (c :: cs) && !pat.isEmpty then
      rep ++ replaceAllAux pat rep fuel ((c :: cs).drop pat.length)
    else c :: replaceAllAux pat rep fuel cs

/-- Python str.replace with the fuel instantiated. -/
def replaceAll (pat rep s : Str) : Str := replaceAllAux pat rep s.length s

/-! ## Version strings and lexicographic tuple order

up_app.py line 296 and app.py `_parse_version` parse a captured version
string (characters drawn from digits and dots) with
tuple(map(int, v.split('.'))), falling back to (0,) when int raises.  -/

/-- Python str.split on the dot character ("".split('.') is [""]). -/
def splitDot : Str → List Str
  | [] => [[]]
  | c :: t =>
    if c == '.' then [] :: splitDot t
    else
      match splitDot t with
      | [] => [[c]]
      | s :: rest => (c :: s) :: rest

/-- Numeric value of a digit string, most significant first. -/
def digitsToNat (s : Str) : Nat := s.foldl (fun n c => 10 * n + (c.toNat - 48)) 0

/-- The model of Python int() on the strings that reach it here: the
segments of a regex capture of digits and dots, so a segment is a digit
string (accepted, with leading zeros allowed) or empty (ValueError). -/
def pyIntSeg (s : Str) : Option Nat :=
  if !s.isEmpty && s.all isDigitC then some (digitsToNat s) else none

/-- SwagelokExtractor version parsing (up_app.py lines 295-298, app.py
`_parse_version`): tuple(map(int, v.split('.'))) with (0,) on exception. -/
def parse_version (v : Str) : List Nat :=
  match (splitDot v).mapM pyIntSeg with
  | some l => l
  | none => [0]

/-- Python lexicographic comparison of int tuples: a < b. -/
def verLt : List Nat → List Nat → Bool
  | [], [] => false
  | [], _ :: _ => true
  | _ :: _, [] => false
  | a :: xs, b :: ys => if a < b then true else if b < a then false else verLt xs ys

/-- Python max over a nonempty sequence of version tuples: fold keeping
the current element unless a strictly greater one appears. -/
def pyMaxVer (h : List Nat) (t : List (List Nat)) : List Nat :=
  t.foldl (fun cur x => if verLt cur x then x else cur) h

/-! ## UNSPSC resolution (up_app.py SwagelokExtractor._unspsc_last) -/

/-- One collected UNSPSC row: version tuple, feature label, code, and the
occurrence index used for the last-occurrence tie-break. -/
structure UEntry where
  v : List Nat
  f : Str
  c : Str
  order : Nat
deriving DecidableEq, Repr

/-- Character class of the version capture: digits and dots. -/
def isVerChar (c : Char) : Bool := isDigitC c || c == '.'

/-- Matcher at a fixed position for the version regex
UNSPSC, optional whitespace, an opening parenthesis, a nonempty capture
of digits and dots, a closing parenthesis (case-insensitive). -/
def verAt (s : Str) : Option Str :=
  (matchLitCI "unspsc".data s).bind fun s1 =>
    match s1.dropWhile isSpaceC with
    | '(' :: s3 =>
      let cap := s3.takeWhile isVerChar
      if cap.isEmpty then none
      else
        match s3.dropWhile isVerChar with
        | ')' :: _ => some cap
        | _ => none
    | _ => none

/-- Model of re.search for the UNSPSC version pattern inside a cell label. -/
def searchVer (s : Str) : Option Str := searchOpt verAt s

/-- Model of the anchored six-to-eight-digit regex applied to the
(stripped) second table cell. -/
def isCodeVal (v : Str) : Bool := 6 ≤ v.length && v.length ≤ 8 && v.all isDigitC

/-- One table row of the parsed page: the first two td cell texts matter.
up_app.py lines 286-299: keep rows whose first cell upper-cases to a
string starting with UNSPSC, whose label carries a parenthesised version
and whose second cell is a 6-8 digit code. -/
def rowEntry (idx : Nat) (cells : List Str) : Option UEntry :=
  match cells with
  | attr :: val :: _ =>
    if !startsWithL "UNSPSC".data (attr.map toUpperA) then none
    else
      match searchVer attr with
      | some vstr => if isCodeVal val then some ⟨parse_version vstr, attr, val, idx⟩ else none
      | none => none
  | _ => none

/-- All UNSPSC entries of the page table, with their tr index as order. -/
def tableEntries (rows : List (List Str)) : List UEntry :=
  rows.enum.filterMap fun p => rowEntry p.1 p.2

/-- Matcher at a fixed position for the fallback full-text pattern: the
version head as above, then a lazy run of non-digits, then six to eight
digits (greedy, capped at eight).  Returns the two captures and the rest
of the text after the match. -/
def fbAt (s : Str) : Option ((Str × Str) × Str) :=
  (matchLitCI "unspsc".data s).bind fun s1 =>
    match s1.dropWhile isSpaceC with
    | '(' :: s3 =>
      let cap := s3.takeWhile isVerChar
      if cap.isEmpty then none
      else
        match s3.dropWhile isVerChar with
        | ')' :: s4 =>
          let s5 := s4.dropWhile (fun c => !isDigitC c)
          let ds := s5.takeWhile isDigitC
          if 6 ≤ ds.length then some ((cap, ds.take 8), s5.drop (min ds.length 8))
          else none
        | _ => none
    | _ => none

/-- Model of the re.findall driver for the fallback pattern:
non-overlapping matches, scanning resumes after each match. -/
def fbScan : Nat → Str → List (Str × Str)
  | 0, _ => []
  | _ + 1, [] => []
  | fuel + 1, c :: cs =>
    match fbAt (c :: cs) with
    | some (pr, rest) => pr :: fbScan fuel (if rest.length < cs.length + 1 then rest else cs)
    | none => fbScan fuel cs

/-- All (version, code) pairs found by the fallback regex over the raw text. -/
def fallbackPairs (html : Str) : List (Str × Str) := fbScan html.length html

/-- Fallback entries (up_app.py lines 302-308), ordered by match index. -/
def fallbackEntries (html : Str) : List UEntry :=
  (fallbackPairs html).enum.map fun p =>
    ⟨parse_version p.2.1, "UNSPSC (".data ++ p.2.1 ++ ")".data, p.2.2, p.1⟩

/-- Python max with an order key over a nonempty list: keeps the current
element unless a strictly greater key appears. -/
def pyMaxByOrder (h : UEntry) (t : List UEntry) : UEntry :=
  t.foldl (fun cur x => if cur.order < x.order then x else cur) h

/-- SwagelokExtractor._unspsc_last (up_app.py lines 284-317): collect the
table entries, fall back to a raw-text scan when the table yields
nothing, and return the feature label and code of the last occurrence of
the maximum version. -/
def unspsc_last (rows : List (List Str)) (html : Str) : Option (Str × Str) :=
  let tes := tableEntries rows
  let entries := if tes.isEmpty then fallbackEntries html else tes
  match entries with
  | [] => none
  | e :: rest =>
    let maxv := pyMaxVer e.v (rest.map UEntry.v)
    match (e :: rest).filter (fun x => decide (x.v = maxv)) with
    | [] => none
    | m :: ms =>
      let last := pyMaxByOrder m ms
      some (last.f, last.c)

/-! ## Part-number resolution (up_app.py SwagelokExtractor) -/

/-- Character class of part captures: letters, digits, dot, dash,
underscore, slash (the regex class is applied case-insensitively). -/
def classPart (c : Char) : Bool :=
  isAlphaC c || isDigitC c || c == '.' || c == '-' || c == '_' || c == '/'

/-- First character of the up_app part capture: letter or digit. -/
def classFirst (c : Char) : Bool := isAlphaC c || isDigitC c

/-- URL-capture class: the part class plus the percent sign. -/
def classUp (c : Char) : Bool := classPart c || c == '%'

/-- Optional markup-tag group of the up_app part pattern: an opening
angle bracket, one or more non-closing characters, a closing angle
bracket; left in place when the group cannot match. -/
def tagSkip (s : Str) : Str :=
  match s with
  | '<' :: rest =>
    let inner := rest.takeWhile (fun c => !(c == '>'))
    match inner, rest.dropWhile (fun c => !(c == '>')) with
    | _ :: _, '>' :: after => after
    | _, _ => s
  | _ => s

/-- Matcher at a fixed position for the up_app part regex: Part, optional
whitespace, a hash, optional whitespace, a colon, optional whitespace, an
optional markup tag, optional whitespace, then a capture starting with a
letter or digit followed by part-class characters.  Returns the capture
and the rest of the text. -/
def partAt (s : Str) : Option (Str × Str) :=
  (matchLitCI "part".data s).bind fun s1 =>
    match s1.dropWhile isSpaceC with
    | '#' :: s3 =>
      match s3.dropWhile isSpaceC with
      | ':' :: s5 =>
        let s8 := (tagSkip (s5.dropWhile isSpaceC)).dropWhile isSpaceC
        match s8 with
        | c :: s9 =>
          if classFirst c then some (c :: s9.takeWhile classPart, s9.dropWhile classPart)
          else none
        | [] => none
      | _ => none
    | _ => none

/-- Model of the re.findall driver for the part pattern (non-overlapping). -/
def partScan : Nat → Str → List Str
  | 0, _ => []
  | _ + 1, [] => []
  | fuel + 1, c :: cs =>
    match partAt (c :: cs) with
    | some (cap, rest) => cap :: partScan fuel (if rest.length < cs.length + 1 then rest else cs)
    | none => partScan fuel cs

/-- All part-pattern captures of the raw page text. -/
def partMatches (html : Str) : List Str := partScan html.length html

/-- Matcher for the first URL pattern: the literal /p/ then a nonempty
run of URL-class characters. -/
def upPAt (s : Str) : Option Str :=
  (matchLitCI "/p/".data s).bind fun s1 =>
    let cap := s1.takeWhile classUp
    if cap.isEmpty then none else some cap

/-- Matcher for the second URL pattern: a question mark or ampersand,
the literal part=, then a nonempty run of URL-class characters. -/
def upQAt (s : Str) : Option Str :=
  match s with
  | c :: s1 =>
    if c == '?' || c == '&' then
      (matchLitCI "part=".data s1).bind fun s2 =>
        let cap := s2.takeWhile classUp
        if cap.isEmpty then none else some cap
    else none
  | [] => none

/-- SwagelokExtractor._up (up_app.py lines 259-264): extract the
URL-embedded part candidate, percent-decoding the two encoded slashes. -/
def up (u : Str) : Option Str :=
  let raw :=
    match searchOpt upPAt u with
    | some cap => some cap
    | none => searchOpt upQAt u
  raw.map fun cap =>
    stripWs (replaceAll "%252F".data "/".data (replaceAll "%2F".data "/".data cap))

/-- SwagelokExtractor._pm (up_app.py lines 266-271): candidates match
when they agree after removing dots, dashes and slashes and lower-casing. -/
def pm (p1 p2 : Str) : Bool :=
  if p1.isEmpty || p2.isEmpty then false
  else
    let norm := fun (p : Str) => (p.filter (fun c => !(c == '.' || c == '-' || c == '/'))).map toLowerA
    norm p1 == norm p2

/-- The letter/digit policy inside SwagelokExtractor._vp: at least one
letter, or at least one digit when the candidate is longer than three
characters. -/
def letterDigitPolicy (p : Str) : Bool :=
  p.any isAlphaC || (p.any isDigitC && decide (3 < p.length))

/-- The _vp denylist of markup and encoding artifacts. -/
def excludesVP : List Str :=
  ["charset".data, "utf".data, "html".data, "http".data, "www".data, "text".data]

/-- SwagelokExtractor._vp (up_app.py lines 273-281): candidate length in
[2,100], the letter/digit policy, and no denylisted substring of the
lower-cased candidate. -/
def vp (p : Str) : Bool :=
  if !(2 ≤ p.length && p.length ≤ 100) then false
  else if !letterDigitPolicy p then false
  else !excludesVP.any (fun ex => containsSub ex (p.map toLowerA))

/-- The candidate loop of SwagelokExtractor._part (up_app.py lines
249-256): with a URL candidate present, return the first page candidate
matching it; without one, return the first page candidate passing _vp. -/
def partLoop (upc : Option Str) : List Str → Option Str
  | [] => none
  | m :: rest =>
    let c := stripWs m
    if c.isEmpty then partLoop upc rest
    else
      match upc with
      | some u => if pm c u then some c else partLoop (some u) rest
      | none => if vp c then some c else partLoop none rest

/-- SwagelokExtractor._part (up_app.py lines 247-257): run the candidate
loop over the page captures, then fall back to the validated URL
candidate. -/
def part_resolve (html url : Str) : Option Str :=
  let upc := up url
  match partLoop upc (partMatches html) with
  | some c => some c
  | none =>
    match upc with
    | some u => if vp u then some u else none
    | none => none

/-! ## Record processor (up_app.py SwagelokExtractor.extract)

The Page Fetcher is an external collaborator: a fetch is modelled as a
function from the URL to an outcome.  A 200 outcome carries the raw page
text together with the table rows the DOM parser extracts from it (each
row the list of its stripped td cell texts). -/

/-- Outcome of the external page fetch for one URL. -/
inductive FetchOutcome where
  | ok (status : Nat) (rows : List (List Str)) (body : Str)
  | timeout
  | exn (msg : Str)
deriving DecidableEq

/-- One output record of up_app.py (dict keys Row, Part, Company, URL,
UNSPSC Feature (Latest), UNSPSC Code, Status, Error). -/
structure Record where
  row : Nat
  part : Str
  company : Str
  url : Str
  feat : Str
  code : Str
  status : Str
  err : Str
deriving DecidableEq, Repr

/-- Invalid-URL test of extract: the url is None, empty, or does not
start with http (case-sensitive, as in the source). -/
def urlInvalid : Option Str → Bool
  | none => true
  | some u => u.isEmpty || !startsWithL "http".data u

/-- Python truthiness of an optional string: not None and non-empty. -/
def truthyOpt (po : Option Str) : Bool :=
  match po with
  | some p => !p.isEmpty
  | none => false

/-- Python truthiness of both components of an optional string pair. -/
def truthyPair (uo : Option (Str × Str)) : Bool :=
  match uo with
  | some pr => !pr.1.isEmpty && !pr.2.isEmpty
  | none => false

/-- The part step of extract (up_app.py lines 218-224): a truthy
resolved part sets the Part field, otherwise the Error field is set when
still empty. -/
def applyPart (base : Record) (po : Option Str) : Record :=
  match po with
  | some p =>
    if p.isEmpty then
      { base with err := if base.err.isEmpty then "Part not found".data else base.err }
    else { base with part := p }
  | none =>
    { base with err := if base.err.isEmpty then "Part not found".data else base.err }

/-- The UNSPSC step of extract (up_app.py lines 227-232): a truthy
feature and code pair sets the fields, otherwise the UNSPSC diagnostic
is written, joined to an existing diagnostic with a semicolon. -/
def applyUnspsc (r1 : Record) (uo : Option (Str × Str)) : Record :=
  match uo with
  | some pr =>
    if !pr.1.isEmpty && !pr.2.isEmpty then { r1 with feat := pr.1, code := pr.2 }
    else
      { r1 with err := if r1.err.isEmpty then "UNSPSC not found".data
                       else r1.err ++ ";UNSPSC not found".data }
  | none =>
    { r1 with err := if r1.err.isEmpty then "UNSPSC not found".data
                     else r1.err ++ ";UNSPSC not found".data }

/-- SwagelokExtractor.extract (up_app.py lines 189-244).  The url is an
Option to model None and non-string inputs; fetch models
session.get with its timeout; every branch returns a complete record. -/
def extract (fetch : Str → FetchOutcome) (tmo : Nat) (url : Option Str) (rowNum : Nat) :
    Record :=
  let base : Record :=
    { row := rowNum, part := "Not Found".data, company := "Swagelok".data,
      url := match url with
             | some u => if u.isEmpty then "Empty".data else u
             | none => "Empty".data,
      feat := "Not Found".data, code := "Not Found".data,
      status := "Success".data, err := [] }
  if urlInvalid url then
    { base with status := "Invalid URL".data, err := "URL is empty or invalid".data }
  else
    match url with
    | none => { base with status := "Invalid URL".data, err := "URL is empty or invalid".data }
    | some u =>
      match fetch u with
      | .timeout =>
        { base with status := "Timeout".data,
                    err := "Timeout after ".data ++ natToStr tmo ++ "s".data }
      | .exn msg => { base with status := "Error".data, err := msg.take 200 }
      | .ok st rows body =>
        if st ≠ 200 then
          { base with status := "HTTP ".data ++ natToStr st,
                      err := "Status ".data ++ natToStr st }
        else
          applyUnspsc (applyPart base (part_resolve body u)) (unspsc_last rows body)

/-! ## Input preparation (up_app.py lines 385-387)

A spreadsheet cell is an Option Str: none models a NaN (blank) cell,
some s a cell with text s.  up_app keeps the stripped text of non-blank
cells and turns blank or whitespace-only cells into None, then filters
the None entries out before batching. -/

/-- One cell of the detected URL column: stripped text when non-blank,
None otherwise (up_app.py line 385). -/
def cellToUrl (cell : Option Str) : Option Str :=
  match cell with
  | none => none
  | some s =>
    let t := stripWs s
    if t.isEmpty then none else some t

/-- Model of urls_all (up_app.py line 385). -/
def urlsAll (cells : List (Option Str)) : List (Option Str) := cells.map cellToUrl

/-- Model of valid_urls (up_app.py line 386): the non-None entries of urls_all. -/
def validUrls (cells : List (Option Str)) : List Str := (urlsAll cells).filterMap id

/-- The URLs a batch run actually passes to the Page Fetcher: extract
calls session.get exactly on the urls that pass its validity test. -/
def batchTrace (batchUrls : List Str) : List Str :=
  batchUrls.filter fun u => !urlInvalid (some u)

/-! ## Batch execution (up_app.py lines 462-504) -/

/-- Sequential processing of one batch (up_app.py lines 497-504): the
record of the url at local index k gets row number startI + k + 1. -/
def processBatchSeqAux (fetch : Str → FetchOutcome) (tmo startI k : Nat) :
    List Str → List Record
  | [] => []
  | u :: rest =>
    extract fetch tmo (some u) (startI + k + 1) :: processBatchSeqAux fetch tmo startI (k + 1) rest

/-- Sequential processing of one batch starting at local index 0. -/
def processBatchSeq (fetch : Str → FetchOutcome) (tmo startI : Nat) (batchUrls : List Str) :
    List Record :=
  processBatchSeqAux fetch tmo startI 0 batchUrls

/-- Parallel processing of one batch (up_app.py lines 469-495): one
future per local index, results appended in completion order.  The
completion order is the list of local indices in the order the worker
tasks finish; each record keeps the row number derived from its original
index.  No reordering happens before the batch is persisted. -/
def processBatchParallel (fetch : Str → FetchOutcome) (tmo startI : Nat)
    (batchUrls : List Str) (order : List Nat) : List Record :=
  order.filterMap fun i =>
    (batchUrls.get? i).map fun u => extract fetch tmo (some u) (startI + i + 1)

/-! ## Job orchestrator (up_app.py lines 446-535, sequential mode)

The checkpoint directory is abstracted at the index level as a Store:
a map from batch index to the optional persisted record list.  The
file-level representation (names, atomic writes, recovery) is modelled
separately below.  The loop visits batch indices in increasing order,
skips indices whose checkpoint existed before the loop started, and
writes every other batch before advancing; the second component of the
result collects the URLs passed to the Page Fetcher, in call order. -/

/-- The checkpoint directory at the index level. -/
abbrev Store := Nat → Option (List Record)

/-- The store with no checkpoints. -/
def emptyStore : Store := fun _ => none

/-- Persist one batch under its index. -/
def writeStore (st : Store) (i : Nat) (v : List Record) : Store :=
  fun j => if j = i then some v else st j

/-- Model of num_batches (up_app.py line 446). -/
def numBatches (total bs : Nat) : Nat := (total + bs - 1) / bs

/-- The slice of valid urls belonging to batch i (up_app.py lines 463-465). -/
def sliceBatch (urls : List Str) (bs i : Nat) : List Str := (urls.drop (i * bs)).take bs

/-- One iteration of the extraction loop: skip a batch completed before
the loop started, otherwise process it sequentially, write it, and
append its fetched URLs to the trace. -/
def extractionStep (fetch : Str → FetchOutcome) (tmo : Nat) (urls : List Str) (bs : Nat)
    (completed : Nat → Bool) (acc : Store × List Str) (i : Nat) : Store × List Str :=
  if completed i then acc
  else
    let recs := processBatchSeq fetch tmo (i * bs) (sliceBatch urls bs i)
    (writeStore acc.1 i recs, acc.2 ++ batchTrace (sliceBatch urls bs i))

/-- The extraction loop over all batch indices in increasing order
(up_app.py lines 453-535), with the completed set computed from the
store once, before the loop, as list_completed_batches is. -/
def extractionLoop (fetch : Str → FetchOutcome) (tmo : Nat) (urls : List Str) (bs : Nat)
    (store0 : Store) : Store × List Str :=
  (List.range (numBatches urls.length bs)).foldl
    (extractionStep fetch tmo urls bs (fun i => (store0 i).isSome)) (store0, [])

/-- The merged final output over the first n batch indices in ascending
index order (the index-level view of load_all_batches). -/
def loadStore (st : Store) (n : Nat) : List Record :=
  (List.range n).flatMap fun i => (st i).getD []

/-! ## File-level checkpoint store (up_app.py lines 120-168)

Checkpoint files live in one directory; a directory listing is a list of
(file name, content) pairs where the content is the optional list of CSV
data rows — none models a file that read_csv fails to parse. -/

/-- A CSV data row: one cell string per column. -/
abbrev CsvRow := List Str

/-- The cell row serialized for one record: every value passed through
str, as save_batch_to_disk does (up_app.py lines 146-148). -/
def recordCells (r : Record) : CsvRow :=
  [natToStr r.row, r.part, r.company, r.url, r.feat, r.code, r.status, r.err]

/-- The serialized content of one batch checkpoint. -/
def serializeBatch (recs : List Record) : List CsvRow := recs.map recordCells

/-- A filesystem: file path to optional content (none: no such file). -/
abbrev FS := Str → Option (List CsvRow)

/-- Create or overwrite a file. -/
def fsWrite (fs : FS) (p : Str) (v : List CsvRow) : FS :=
  fun q => if q = p then some v else fs q

/-- Remove a file. -/
def fsErase (fs : FS) (p : Str) : FS :=
  fun q => if q = p then none else fs q

/-- The final checkpoint path for a batch (up_app.py line 143). -/
def checkpointPath (dir pre : Str) (n : Nat) : Str :=
  dir ++ "/".data ++ pre ++ "_".data ++ natToStr n ++ ".csv".data

/-- The temporary path used by the atomic write (up_app.py line 144). -/
def tmpPath (p : Str) : Str := p ++ ".tmp".data

/-- save_batch_to_disk (up_app.py lines 141-151) as the sequence of
observable filesystem states: serialize to the temporary path, then
atomically replace the final path (os.replace is one transition).  When
serialization fails the temporary path may hold arbitrary partial bytes
(the junk argument) and the replace never runs. -/
def save_batch_to_disk_states (fs : FS) (dir pre : Str) (n : Nat) (recs : List Record)
    (serOk : Bool) (junk : Option (List CsvRow)) : List FS :=
  let p := checkpointPath dir pre n
  let t := tmpPath p
  if serOk then
    let fs1 := fsWrite fs t (serializeBatch recs)
    [fs, fs1, fsWrite (fsErase fs1 t) p (serializeBatch recs)]
  else
    let fs1 := match junk with
               | some j => fsWrite fs t j
               | none => fs
    [fs, fs1]

/-- Does a file name match the glob for checkpoint files of this prefix
as used with the fixed prefix batch (up_app.py lines 128, 155)? -/
def globMatch (name : Str) : Bool :=
  startsWithL "batch_".data name && endsWithL ".csv".data name

/-- Python str.split on a single separator character (never empty). -/
def splitOnC (sep : Char) : Str → List Str
  | [] => [[]]
  | c :: t =>
    if c == sep then [] :: splitOnC sep t
    else
      match splitOnC sep t with
      | [] => [[c]]
      | s :: rest => (c :: s) :: rest

/-- Parse the batch index out of a checkpoint file name:
int(name.split with underscore, last element, split on dot, first
element); none models the int() exception (up_app.py line 134). -/
def parseIdxName (name : Str) : Option Nat :=
  pyIntSeg (((splitOnC '.' ((splitOnC '_' name).getLastD [])).headD []))

/-- A directory listing: file names with their optional readable content. -/
abbrev DirList := List (Str × Option (List CsvRow))

/-- Model of list_completed_batches (up_app.py lines 127-138): the batch indices
whose matching file names parse; unparseable names are skipped. -/
def list_completed_batches (dir : DirList) : List Nat :=
  dir.filterMap fun e => if globMatch e.1 then parseIdxName e.1 else none

/-- Insert into a list sorted by the boolean relation le, before the
first element x may precede (the stable insertion of insertion sort). -/
def insertLe {α : Type} (le : α → α → Bool) (x : α) : List α → List α
  | [] => [x]
  | y :: ys => if le x y then x :: y :: ys else y :: insertLe le x ys

/-- Stable insertion sort by a boolean relation, the model of Python
sorted/list.sort (equal keys keep their original relative order). -/
def insSortBy {α : Type} (le : α → α → Bool) : List α → List α
  | [] => []
  | x :: xs => insertLe le x (insSortBy le xs)

/-- Sort key of load_all_batches: the parsed batch index (defined when
every matching name parses, the case load_all_batches does not raise). -/
def fileKey (e : Str × Option (List CsvRow)) : Nat := (parseIdxName e.1).getD 0

/-- Model of load_all_batches (up_app.py lines 154-168): sort the matching files
by parsed batch index and concatenate the readable ones; a file whose
name fails to parse makes the sort key raise, modelled as none; a file
whose content fails to read is skipped. -/
def load_all_batches (dir : DirList) : Option (List CsvRow) :=
  let files := dir.filter fun e => globMatch e.1
  if files.all (fun e => (parseIdxName e.1).isSome) then
    some (((insSortBy (fun a b => fileKey a ≤ fileKey b) files).filterMap Prod.snd).flatten)
  else none

/-! ## The sequential row processor of Last_app.py (lines 267-324)

Last_app processes one url per row in place.  A blank spreadsheet cell
becomes the string nan through astype(str), which fails the http test.
Timeouts are not treated specially there: requests.Timeout is caught by
the generic except clause; the model routes the timeout outcome through
that handler with the exception text abstracted as Timeout.  The UNSPSC
choice sorts the entries by version descending with a stable sort and
takes the first, and the sort key itself can raise when a label has no
parenthesised version or a version segment is empty; the first failing
entry in list order determines the message, as Python computes the keys
in order. -/

/-- One Last_app row result (row_result keys Part, UNSPSC Feature
(Latest), UNSPSC Code, Status, Error). -/
structure LastRow where
  part : Str
  feat : Str
  code : Str
  status : Str
  err : Str
deriving DecidableEq, Repr

/-- Matcher for the parenthesised version pattern of the Last_app sort
key: an opening parenthesis, a nonempty capture of digits and dots, a
closing parenthesis. -/
def parenVerAt (s : Str) : Option Str :=
  match s with
  | '(' :: s1 =>
    let cap := s1.takeWhile isVerChar
    if cap.isEmpty then none
    else
      match s1.dropWhile isVerChar with
      | ')' :: _ => some cap
      | _ => none
  | _ => none

/-- The Last_app sort key for one UNSPSC entry: search the label for a
parenthesised version and parse its segments as ints; the outer none
models the AttributeError of a missing match, the inner none (mapM) the
ValueError of int on an empty segment. -/
def lastVerKey (attr : Str) : Option (List Nat) :=
  match searchOpt parenVerAt attr with
  | none => none
  | some cap => (splitDot cap).mapM pyIntSeg

/-- The message of the exception the Last_app sort key raises on the
first failing entry, in list order. -/
def lastKeyErrMsg : List (Str × Str) → Option Str
  | [] => none
  | e :: rest =>
    match searchOpt parenVerAt e.1 with
    | none => some "\x27NoneType\x27 object has no attribute \x27group\x27".data
    | some cap =>
      match (splitDot cap).mapM pyIntSeg with
      | none => some "invalid literal for int() with base 10: \x27\x27".data
      | some _ => lastKeyErrMsg rest

/-- Matcher for the Last_app part pattern: Part, optional whitespace, a
hash, optional whitespace, a colon, optional whitespace, a nonempty
capture of part-class characters. -/
def lastPartAt (s : Str) : Option Str :=
  (matchLitCI "part".data s).bind fun s1 =>
    match s1.dropWhile isSpaceC with
    | '#' :: s2 =>
      match s2.dropWhile isSpaceC with
      | ':' :: s3 =>
        let cap := (s3.dropWhile isSpaceC).takeWhile classPart
        if cap.isEmpty then none else some cap
      | _ => none
    | _ => none

/-- The UNSPSC table filter of Last_app (lines 300-308): first cell
upper-cases to a string starting with UNSPSC and second cell is a 6-8
digit code. -/
def lastEntries (rows : List (List Str)) : List (Str × Str) :=
  rows.filterMap fun cells =>
    match cells with
    | attr :: val :: _ =>
      if startsWithL "UNSPSC".data (attr.map toUpperA) && isCodeVal val then some (attr, val)
      else none
    | _ => none

/-- The Last_app row processor (lines 267-324): returns the row result
together with the list of URLs passed to session.get. -/
def lastProcessRow (fetch : Str → FetchOutcome) (url : Str) : LastRow × List Str :=
  let base : LastRow :=
    { part := "Not Found".data, feat := "Not Found".data, code := "Not Found".data,
      status := "Success".data, err := [] }
  if url.isEmpty || !startsWithL "http".data (url.map toLowerA) then
    ({ base with status := "Invalid URL".data, err := "Empty or invalid URL".data }, [])
  else
    match fetch url with
    | .timeout =>
      ({ base with status := "Error".data, err := "Timeout".data.take 100 }, [url])
    | .exn msg =>
      ({ base with status := "Error".data, err := msg.take 100 }, [url])
    | .ok st rows body =>
      if st ≠ 200 then
        ({ base with status := "HTTP ".data ++ natToStr st,
                     err := "Status ".data ++ natToStr st }, [url])
      else
        let r1 :=
          match searchOpt lastPartAt body with
          | some p => { base with part := stripWs p }
          | none => base
        let entries := lastEntries rows
        match entries with
        | [] => (r1, [url])
        | _ =>
          match lastKeyErrMsg entries with
          | some msg => ({ r1 with status := "Error".data, err := msg.take 100 }, [url])
          | none =>
            let le := fun (a b : Str × Str) =>
              !verLt ((lastVerKey a.1).getD []) ((lastVerKey b.1).getD [])
            match insSortBy le entries with
            | [] => (r1, [url])
            | e :: _ => ({ r1 with feat := e.1, code := e.2 }, [url])

/-- Last_app url preparation: astype(str) turns a NaN cell into nan. -/
def lastCellToStr (cell : Option Str) : Str :=
  match cell with
  | some s => s
  | none => "nan".data

/-! ## Auxiliary definitions used by the statements below -/

/-- Join segments with a dot: the inverse image used to state what
parse_version does on a dot-separated sequence of integers. -/
def intercalateDot : List Str → Str
  | [] => []
  | [s] => s
  | s :: rest => s ++ '.' :: intercalateDot rest

/-- Is a list of row numbers in ascending order? -/
def rowsAscending : List Nat → Bool
  | [] => true
  | [_] => true
  | a :: b :: t => a ≤ b && rowsAscending (b :: t)

/-- The part-found test of extract (a truthy resolved part). -/
def partFoundB (body u : Str) : Bool := truthyOpt (part_resolve body u)

/-- The UNSPSC-found test of extract (a truthy feature and code pair). -/
def unspscFoundB (rows : List (List Str)) (body : Str) : Bool :=
  truthyPair (unspsc_last rows body)

/-- The duplicated-maximum-version table of the tie-break scenario: the
code 40183103 occurs first, 40183102 last. -/
def demoRows : List (List Str) :=
  [["UNSPSC (17.1001)".data, "40183103".data],
   ["UNSPSC (17.1001)".data, "40183102".data]]

/-! ## Lemmas about the lexicographic version order -/

theorem verLt_irrefl (a : List Nat) : verLt a a = false := by
  induction a with
  | nil => rfl
  | cons x xs ih => simp [verLt, ih]

theorem verLt_trans (a b c : List Nat) (h1 : verLt a b = true) (h2 : verLt b c = true) :
    verLt a c = true := by
  induction a generalizing b c with
  | nil =>
    cases b with
    | nil => simp [verLt] at h1
    | cons y ys =>
      cases c with
      | nil => simp [verLt] at h2
      | cons z zs => simp [verLt]
  | cons x xs ih =>
    cases b with
    | nil => simp [verLt] at h1
    | cons y ys =>
      cases c with
      | nil => simp [verLt] at h2
      | cons z zs =>
        simp only [verLt] at h1 h2 ⊢
        by_cases hxy : x < y
        · by_cases hyz : y < z
          · simp [Nat.lt_trans hxy hyz]
          · by_cases hzy : z < y
            · simp [hyz, hzy] at h2
            · have hyz2 : y = z := Nat.le_antisymm (Nat.le_of_not_lt hzy) (Nat.le_of_not_lt hyz)
              subst hyz2
              simp [hxy]
        · by_cases hyx : y < x
          · simp [hxy, hyx] at h1
          · have hxy2 : x = y := Nat.le_antisymm (Nat.le_of_not_lt hyx) (Nat.le_of_not_lt hxy)
            subst hxy2
            simp only [hxy, if_false, Nat.lt_irrefl] at h1 ⊢
            by_cases hxz : x < z
            · simp [hxz]
            · by_cases hzx : z < x
              · simp [hxz, hzx] at h2
              · simp only [hxz, hzx, if_false]
                simp only [hxz, hzx, if_false] at h2
                exact ih ys zs h1 h2

theorem verLt_connex (a b : List Nat) (h : verLt a b = false) :
    verLt b a = true ∨ a = b := by
  induction a generalizing b with
  | nil =>
    cases b with
    | nil => right; rfl
    | cons y ys => simp [verLt] at h
  | cons x xs ih =>
    cases b with
    | nil => left; simp [verLt]
    | cons y ys =>
      simp only [verLt] at h ⊢
      by_cases hxy : x < y
      · simp [hxy] at h
      · by_cases hyx : y < x
        · left; simp [hyx]
        · have hxy2 : x = y := Nat.le_antisymm (Nat.le_of_not_lt hyx) (Nat.le_of_not_lt hxy)
          subst hxy2
          simp only [hxy, if_false, Nat.lt_irrefl] at h ⊢
          rcases ih ys h with h1 | h1
          · left; exact h1
          · right; rw [h1]

theorem verLt_asymm (a b : List Nat) (h : verLt a b = true) : verLt b a = false := by
  by_cases hc : verLt b a = true
  · have := verLt_trans a b a h hc
    rw [verLt_irrefl] at this
    exact Bool.noConfusion this
  · revert hc; cases verLt b a <;> simp

theorem verLt_false_trans (a b c : List Nat) (h1 : verLt a b = false)
    (h2 : verLt b c = false) : verLt a c = false := by
  by_cases hc : verLt a c = true
  · rcases verLt_connex a b h1 with h3 | h3
    · have := verLt_trans b a c h3 hc
      rw [h2] at this
      exact Bool.noConfusion this
    · rw [h3] at hc
      rw [h2] at hc
      exact Bool.noConfusion hc
  · revert hc; cases verLt a c <;> simp

theorem pyMaxVer_spec (h : List Nat) (t : List (List Nat)) :
    (pyMaxVer h t = h ∨ pyMaxVer h t ∈ t) ∧ verLt (pyMaxVer h t) h = false ∧
      ∀ x ∈ t, verLt (pyMaxVer h t) x = false := by
  induction t generalizing h with
  | nil => simp [pyMaxVer, verLt_irrefl]
  | cons y ys ih =>
    have hstep : pyMaxVer h (y :: ys) = pyMaxVer (if verLt h y then y else h) ys := by
      simp [pyMaxVer]
    obtain ⟨hmem, hge, hall⟩ := ih (if verLt h y then y else h)
    have hmh : verLt (if verLt h y then y else h) h = false := by
      by_cases hv : verLt h y = true
      · rw [if_pos hv]; exact verLt_asymm h y hv
      · rw [if_neg hv]; exact verLt_irrefl h
    have hmy : verLt (if verLt h y then y else h) y = false := by
      by_cases hv : verLt h y = true
      · rw [if_pos hv]; exact verLt_irrefl y
      · rw [if_neg hv]
        revert hv; cases verLt h y <;> simp
    refine ⟨?_, ?_, ?_⟩
    · rw [hstep]
      rcases hmem with h1 | h1
      · by_cases hv : verLt h y = true
        · rw [if_pos hv] at h1
          right
          rw [if_pos hv, h1]
          exact List.mem_cons_self _ _
        · rw [if_neg hv] at h1
          left
          rw [if_neg hv]
          exact h1
      · right; exact List.mem_cons_of_mem _ h1
    · rw [hstep]
      exact verLt_false_trans _ _ _ hge hmh
    · intro x hx
      rw [hstep]
      rcases List.mem_cons.mp hx with h1 | h1
      · rw [h1]
        exact verLt_false_trans _ _ _ hge hmy
      · exact hall x h1

theorem pyMaxByOrder_spec (h : UEntry) (t : List UEntry) :
    pyMaxByOrder h t ∈ h :: t ∧ ∀ x ∈ h :: t, x.order ≤ (pyMaxByOrder h t).order := by
  induction t generalizing h with
  | nil => simp [pyMaxByOrder]
  | cons y ys ih =>
    have hstep : pyMaxByOrder h (y :: ys) = pyMaxByOrder (if h.order < y.order then y else h) ys := by
      simp [pyMaxByOrder]
    obtain ⟨hmem, hmax⟩ := ih (if h.order < y.order then y else h)
    have hsub : (if h.order < y.order then y else h) ∈ h :: y :: ys := by
      by_cases hv : h.order < y.order
      · rw [if_pos hv]; exact List.mem_cons_of_mem _ (List.mem_cons_self _ _)
      · rw [if_neg hv]; exact List.mem_cons_self _ _
    have hcur : (if h.order < y.order then y else h).order ≤
        (pyMaxByOrder (if h.order < y.order then y else h) ys).order :=
      hmax _ (List.mem_cons_self _ _)
    have hmh : h.order ≤ (if h.order < y.order then y else h).order := by
      by_cases hv : h.order < y.order
      · rw [if_pos hv]; exact Nat.le_of_lt hv
      · rw [if_neg hv]
    have hmy : y.order ≤ (if h.order < y.order then y else h).order := by
      by_cases hv : h.order < y.order
      · rw [if_pos hv]
      · rw [if_neg hv]; exact Nat.le_of_not_lt hv
    constructor
    · rw [hstep]
      rcases List.mem_cons.mp hmem with h1 | h1
      · rw [h1]; exact hsub
      · exact List.mem_cons_of_mem _ (List.mem_cons_of_mem _ h1)
    · intro x hx
      rw [hstep]
      rcases List.mem_cons.mp hx with h1 | h1
      · rw [h1]; exact Nat.le_trans hmh hcur
      · rcases List.mem_cons.mp h1 with h2 | h2
        · rw [h2]; exact Nat.le_trans hmy hcur
        · exact hmax x (List.mem_cons_of_mem _ h2)

/-! ## Lemmas about splitting version strings -/

theorem splitDot_ne_nil (s : Str) : splitDot s ≠ [] := by
  cases s with
  | nil => simp [splitDot]
  | cons c t =>
    simp only [splitDot]
    by_cases hc : (c == '.') = true
    · simp [hc]
    · simp only [hc, if_false]
      cases h : splitDot t <;> simp

theorem splitDot_no_dot (s : Str) (h : ∀ c ∈ s, ¬ c = '.') : splitDot s = [s] := by
  induction s with
  | nil => rfl
  | cons c t ih =>
    have hc : (c == '.') = false := by
      cases hb : (c == '.') with
      | false => rfl
      | true => exact absurd (eq_of_beq hb) (h c (List.mem_cons_self _ _))
    simp only [splitDot, hc]
    rw [ih (fun x hx => h x (List.mem_cons_of_mem _ hx))]
    rfl

theorem splitDot_append_dot (s t : Str) (h : ∀ c ∈ s, ¬ c = '.') :
    splitDot (s ++ '.' :: t) = s :: splitDot t := by
  induction s with
  | nil => simp [splitDot]
  | cons c cs ih =>
    have hc : (c == '.') = false := by
      cases hb : (c == '.') with
      | false => rfl
      | true => exact absurd (eq_of_beq hb) (h c (List.mem_cons_self _ _))
    rw [List.cons_append]
    simp only [splitDot, hc]
    rw [ih (fun x hx => h x (List.mem_cons_of_mem _ hx))]
    rfl

theorem splitDot_intercalate : ∀ (ss : List Str), (∀ s ∈ ss, ∀ c ∈ s, ¬ c = '.') →
    ss ≠ [] → splitDot (intercalateDot ss) = ss
  | [], _, hne => absurd rfl hne
  | [s], h, _ => by
    simp only [intercalateDot]
    exact splitDot_no_dot s (h s (List.mem_cons_self _ _))
  | s :: r :: rs, h, _ => by
    have ih := splitDot_intercalate (r :: rs)
      (fun x hx => h x (List.mem_cons_of_mem _ hx)) (by simp)
    simp only [intercalateDot]
    rw [splitDot_append_dot s _ (h s (List.mem_cons_self _ _))]
    rw [ih]

theorem mapM_pyIntSeg (ss : List Str)
    (h : ∀ s ∈ ss, ¬ s = [] ∧ s.all isDigitC = true) :
    ss.mapM pyIntSeg = some (ss.map digitsToNat) := by
  induction ss with
  | nil => rfl
  | cons s rest ih =>
    obtain ⟨h1, h2⟩ := h s (List.mem_cons_self _ _)
    have hs : pyIntSeg s = some (digitsToNat s) := by
      have h3 : s.isEmpty = false := by
        cases s with
        | nil => exact absurd rfl h1
        | cons a b => rfl
      simp [pyIntSeg, h3, h2]
    rw [List.mapM_cons, hs, ih (fun x hx => h x (List.mem_cons_of_mem _ hx))]
    rfl

/-! ## Lemmas about the stable insertion sort -/

theorem insertLe_perm {α : Type} (le : α → α → Bool) (x : α) (l : List α) :
    (insertLe le x l).Perm (x :: l) := by
  induction l with
  | nil => exact List.Perm.refl _
  | cons y ys ih =>
    simp only [insertLe]
    by_cases hv : le x y = true
    · rw [if_pos hv]
    · rw [if_neg hv]
      exact (ih.cons y).trans (List.Perm.swap x y ys)

theorem insSortBy_perm {α : Type} (le : α → α → Bool) (l : List α) :
    (insSortBy le l).Perm l := by
  induction l with
  | nil => exact List.Perm.refl _
  | cons x xs ih =>
    exact (insertLe_perm le x (insSortBy le xs)).trans (ih.cons x)

theorem insertLe_chain {α : Type} (le : α → α → Bool)
    (htot : ∀ a b, le a b = true ∨ le b a = true) (x : α) :
    ∀ (l : List α), List.Chain' (fun a b => le a b = true) l →
      List.Chain' (fun a b => le a b = true) (insertLe le x l)
  | [], _ => List.chain'_singleton x
  | y :: ys, hl => by
    by_cases hxy : le x y = true
    · simp only [insertLe, if_pos hxy]
      exact hl.cons hxy
    · have hyx : le y x = true := (htot x y).resolve_left hxy
      have ih := insertLe_chain le htot x ys hl.tail
      simp only [insertLe, if_neg hxy]
      refine List.chain'_cons'.mpr ⟨?_, ih⟩
      intro z hz
      cases ys with
      | nil =>
        simp only [insertLe, List.head?] at hz
        rw [Option.mem_def, Option.some_inj] at hz
        rw [← hz]
        exact hyx
      | cons w ws =>
        by_cases hxw : le x w = true
        · simp only [insertLe, if_pos hxw, List.head?] at hz
          rw [Option.mem_def, Option.some_inj] at hz
          rw [← hz]
          exact hyx
        · simp only [insertLe, if_neg hxw, List.head?] at hz
          rw [Option.mem_def, Option.some_inj] at hz
          rw [← hz]
          exact (List.chain'_cons.mp hl).1

theorem insSortBy_chain {α : Type} (le : α → α → Bool)
    (htot : ∀ a b, le a b = true ∨ le b a = true) (l : List α) :
    List.Chain' (fun a b => le a b = true) (insSortBy le l) := by
  induction l with
  | nil => exact List.chain'_nil
  | cons x xs ih => exact insertLe_chain le htot x (insSortBy le xs) ih

/-! ## Substring lemmas -/

theorem startsWithL_map (f : Char → Char) (n : Str) :
    ∀ (s : Str), startsWithL n s = true → startsWithL (n.map f) (s.map f) = true := by
  induction n with
  | nil => intro s _; rfl
  | cons a xs ih =>
    intro s h
    cases s with
    | nil => exact absurd h (by simp [startsWithL])
    | cons b ys =>
      simp only [startsWithL, Bool.and_eq_true] at h
      obtain ⟨h1, h2⟩ := h
      simp only [List.map_cons, startsWithL, Bool.and_eq_true]
      exact ⟨by rw [eq_of_beq h1]; exact beq_self_eq_true _, ih ys h2⟩

theorem containsSub_map (f : Char → Char) (n : Str) :
    ∀ (s : Str), containsSub n s = true → containsSub (n.map f) (s.map f) = true := by
  intro s
  induction s with
  | nil =>
    intro h
    cases n with
    | nil => rfl
    | cons a xs => exact absurd h (by simp [containsSub, startsWithL])
  | cons c cs ih =>
    intro h
    simp only [containsSub, Bool.or_eq_true] at h
    rcases h with h1 | h1
    · have := startsWithL_map f n (c :: cs) h1
      simp only [List.map_cons] at this ⊢
      simp [containsSub, this]
    · simp only [List.map_cons]
      simp [containsSub, ih h1]

/-! ## Lemmas about the record processor and batch execution -/

theorem applyPart_row (base : Record) (po : Option Str) :
    (applyPart base po).row = base.row := by
  cases po with
  | none => rfl
  | some p => by_cases hpe : p.isEmpty = true <;> simp [applyPart, hpe]

theorem applyUnspsc_row (r1 : Record) (uo : Option (Str × Str)) :
    (applyUnspsc r1 uo).row = r1.row := by
  cases uo with
  | none => rfl
  | some pr =>
    by_cases hfc : (!pr.1.isEmpty && !pr.2.isEmpty) = true <;> simp [applyUnspsc, hfc]

theorem applyPart_status (base : Record) (po : Option Str) :
    (applyPart base po).status = base.status := by
  cases po with
  | none => rfl
  | some p => by_cases hpe : p.isEmpty = true <;> simp [applyPart, hpe]

theorem applyUnspsc_status (r1 : Record) (uo : Option (Str × Str)) :
    (applyUnspsc r1 uo).status = r1.status := by
  cases uo with
  | none => rfl
  | some pr =>
    by_cases hfc : (!pr.1.isEmpty && !pr.2.isEmpty) = true <;> simp [applyUnspsc, hfc]

theorem applyPart_err (base : Record) (po : Option Str) (hbe : base.err = []) :
    (applyPart base po).err = if truthyOpt po then [] else "Part not found".data := by
  cases po with
  | none => simp [applyPart, truthyOpt, hbe]
  | some p =>
    cases hpe : p.isEmpty with
    | true => simp [applyPart, truthyOpt, hpe, hbe]
    | false => simp [applyPart, truthyOpt, hpe, hbe]

theorem applyUnspsc_err (r1 : Record) (uo : Option (Str × Str)) :
    (applyUnspsc r1 uo).err =
      if truthyPair uo then r1.err
      else (if r1.err.isEmpty then "UNSPSC not found".data
            else r1.err ++ ";UNSPSC not found".data) := by
  cases uo with
  | none => simp [applyUnspsc, truthyPair]
  | some pr =>
    cases hfc : (!pr.1.isEmpty && !pr.2.isEmpty) with
    | true => simp [applyUnspsc, truthyPair, hfc]
    | false => simp [applyUnspsc, truthyPair, hfc]

theorem extract_row (fetch : Str → FetchOutcome) (tmo : Nat) (url : Option Str) (n : Nat) :
    (extract fetch tmo url n).row = n := by
  cases url with
  | none => rfl
  | some u =>
    by_cases hv : urlInvalid (some u) = true
    · simp [extract, hv]
    · cases hf : fetch u with
      | timeout => simp [extract, hv, hf]
      | exn m => simp [extract, hv, hf]
      | ok st rows body =>
        by_cases hst : st = 200
        · subst hst
          simp only [extract, hv, Bool.false_eq_true, if_false, hf]
          rw [if_neg (by simp)]
          rw [applyUnspsc_row, applyPart_row]
        · simp [extract, hv, hf, hst]

theorem processBatchSeqAux_eq (fetch : Str → FetchOutcome) (tmo s : Nat) :
    ∀ (urls : List Str) (k : Nat),
    processBatchSeqAux fetch tmo s k urls =
      (List.range urls.length).map
        (fun i => extract fetch tmo (some (urls.getD i [])) (s + (k + i) + 1))
  | [], _ => by simp [processBatchSeqAux]
  | u :: rest, k => by
    have ih := processBatchSeqAux_eq fetch tmo s rest (k + 1)
    simp only [processBatchSeqAux, List.length_cons]
    rw [List.range_succ_eq_map]
    simp only [List.map_cons, List.map_map]
    refine List.cons_eq_cons.mpr ⟨by simp, ?_⟩
    rw [ih]
    refine List.map_congr_left ?_
    intro i _
    simp only [Function.comp_apply, List.getD_cons_succ]
    have harith : s + (k + 1 + i) + 1 = s + (k + (i + 1)) + 1 := by omega
    rw [harith]

theorem processBatchSeq_eq (fetch : Str → FetchOutcome) (tmo s : Nat) (urls : List Str) :
    processBatchSeq fetch tmo s urls =
      (List.range urls.length).map
        (fun i => extract fetch tmo (some (urls.getD i [])) (s + i + 1)) := by
  rw [processBatchSeq, processBatchSeqAux_eq]
  refine List.map_congr_left ?_
  intro i _
  have harith : s + (0 + i) + 1 = s + i + 1 := by omega
  rw [harith]

theorem processBatchParallel_eq (fetch : Str → FetchOutcome) (tmo s : Nat) (urls : List Str) :
    ∀ (order : List Nat), (∀ i ∈ order, i < urls.length) →
    processBatchParallel fetch tmo s urls order =
      order.map (fun i => extract fetch tmo (some (urls.getD i [])) (s + i + 1))
  | [], _ => rfl
  | i :: rest, h => by
    have hi : i < urls.length := h i (List.mem_cons_self _ _)
    have ih := processBatchParallel_eq fetch tmo s urls rest
      (fun x hx => h x (List.mem_cons_of_mem _ hx))
    have hg : urls.get? i = some (urls.getD i []) := by
      cases hg2 : urls.get? i with
      | none =>
        rw [List.get?_eq_none] at hg2
        omega
      | some u =>
        have : urls.getD i [] = u := by
          rw [List.getD_eq_getElem?_getD, ← List.get?_eq_getElem?, hg2]
          rfl
        rw [this]
    simp only [processBatchParallel, List.filterMap_cons, hg, Option.map_some]
    simp only [processBatchParallel] at ih
    rw [ih]
    rfl

theorem flatMap_congr_on {α β : Type} (l : List α) (f g : α → List β)
    (h : ∀ a ∈ l, f a = g a) : l.flatMap f = l.flatMap g := by
  induction l with
  | nil => rfl
  | cons a rest ih =>
    simp only [List.flatMap_cons]
    rw [h a (List.mem_cons_self _ _), ih (fun x hx => h x (List.mem_cons_of_mem _ hx))]

/-! ## Lemmas about the extraction loop -/

theorem extractionFold_fst (fetch : Str → FetchOutcome) (tmo : Nat) (urls : List Str)
    (bs : Nat) (completed : Nat → Bool) :
    ∀ (idxs : List Nat) (st : Store) (tr : List Str) (j : Nat),
    (idxs.foldl (extractionStep fetch tmo urls bs completed) (st, tr)).1 j =
      if j ∈ idxs ∧ completed j = false
      then some (processBatchSeq fetch tmo (j * bs) (sliceBatch urls bs j))
      else st j
  | [], st, tr, j => by simp
  | i :: rest, st, tr, j => by
    have ih := extractionFold_fst fetch tmo urls bs completed rest
    simp only [List.foldl_cons]
    by_cases hc : completed i = true
    · have hstep : extractionStep fetch tmo urls bs completed (st, tr) i = (st, tr) := by
        simp [extractionStep, hc]
      rw [hstep, ih]
      by_cases hji : j = i
      · subst hji
        simp [hc]
      · simp only [List.mem_cons]
        by_cases hjr : j ∈ rest ∧ completed j = false
        · rw [if_pos hjr, if_pos ⟨Or.inr hjr.1, hjr.2⟩]
        · rw [if_neg hjr, if_neg ?_]
          intro hcon
          rcases hcon.1 with h1 | h1
          · exact hji h1
          · exact hjr ⟨h1, hcon.2⟩
    · have hcf : completed i = false := by revert hc; cases completed i <;> simp
      have hstep : extractionStep fetch tmo urls bs completed (st, tr) i =
          (writeStore st i (processBatchSeq fetch tmo (i * bs) (sliceBatch urls bs i)),
           tr ++ batchTrace (sliceBatch urls bs i)) := by
        simp [extractionStep, hcf]
      rw [hstep, ih]
      by_cases hji : j = i
      · subst hji
        rw [if_pos (show j ∈ j :: rest ∧ completed j = false from ⟨List.mem_cons_self _ _, hcf⟩)]
        by_cases hjr : j ∈ rest ∧ completed j = false
        · rw [if_pos hjr]
        · rw [if_neg hjr]
          simp [writeStore]
      · simp only [List.mem_cons]
        have hw : writeStore st i (processBatchSeq fetch tmo (i * bs) (sliceBatch urls bs i)) j
            = st j := by
          simp [writeStore, hji]
        by_cases hjr : j ∈ rest ∧ completed j = false
        · rw [if_pos hjr, if_pos ⟨Or.inr hjr.1, hjr.2⟩]
        · rw [if_neg hjr, hw, if_neg ?_]
          intro hcon
          rcases hcon.1 with h1 | h1
          · exact hji h1
          · exact hjr ⟨h1, hcon.2⟩

theorem extractionFold_snd (fetch : Str → FetchOutcome) (tmo : Nat) (urls : List Str)
    (bs : Nat) (completed : Nat → Bool) :
    ∀ (idxs : List Nat) (st : Store) (tr : List Str),
    (idxs.foldl (extractionStep fetch tmo urls bs completed) (st, tr)).2 =
      tr ++ (idxs.filter (fun i => !completed i)).flatMap
        (fun i => batchTrace (sliceBatch urls bs i))
  | [], st, tr => by simp
  | i :: rest, st, tr => by
    have ih := extractionFold_snd fetch tmo urls bs completed rest
    simp only [List.foldl_cons]
    by_cases hc : completed i = true
    · have hstep : extractionStep fetch tmo urls bs completed (st, tr) i = (st, tr) := by
        simp [extractionStep, hc]
      rw [hstep, ih]
      simp [List.filter_cons, hc]
    · have hcf : completed i = false := by revert hc; cases completed i <;> simp
      have hstep : extractionStep fetch tmo urls bs completed (st, tr) i =
          (writeStore st i (processBatchSeq fetch tmo (i * bs) (sliceBatch urls bs i)),
           tr ++ batchTrace (sliceBatch urls bs i)) := by
        simp [extractionStep, hcf]
      rw [hstep, ih]
      simp [List.filter_cons, hcf, List.append_assoc]

/-! ## Claim theorems -/

/-- C1: for every page whose UNSPSC table yields entries, the resolver
under the last-occurrence policy returns the feature label and code of
an entry of maximal version whose table-row order is maximal among the
entries sharing that version — the row occurring last in table order; in
particular two rows both labelled UNSPSC (17.1001) with codes 40183103
(earlier) and 40183102 (later) resolve to 40183102 (see the witness). -/
theorem unspsc_last_picks_last_max_occurrence (rows : List (List Str)) (html : Str)
    (h : tableEntries rows ≠ []) :
    ∃ e ∈ tableEntries rows,
      unspsc_last rows html = some (e.f, e.c) ∧
      (∀ x ∈ tableEntries rows, verLt e.v x.v = false) ∧
      (∀ x ∈ tableEntries rows, x.v = e.v → x.order ≤ e.order) := by
  cases hes : tableEntries rows with
  | nil => exact absurd hes h
  | cons e rest =>
    obtain ⟨hmm, hgeh, hget⟩ := pyMaxVer_spec e.v (rest.map UEntry.v)
    have hex : ∃ e0, e0 ∈ e :: rest ∧ e0.v = pyMaxVer e.v (rest.map UEntry.v) := by
      rcases hmm with h1 | h1
      · exact ⟨e, List.mem_cons_self _ _, h1.symm⟩
      · obtain ⟨e0, he0, hv0⟩ := List.mem_map.mp h1
        exact ⟨e0, List.mem_cons_of_mem _ he0, hv0⟩
    obtain ⟨e0, he0m, he0v⟩ := hex
    have hfil : e0 ∈ (e :: rest).filter
        (fun x => decide (x.v = pyMaxVer e.v (rest.map UEntry.v))) := by
      refine List.mem_filter.mpr ⟨he0m, ?_⟩
      simp [he0v]
    cases hfe : (e :: rest).filter
        (fun x => decide (x.v = pyMaxVer e.v (rest.map UEntry.v))) with
    | nil =>
      rw [hfe] at hfil
      cases hfil
    | cons m ms =>
      obtain ⟨hlm, hlmax⟩ := pyMaxByOrder_spec m ms
      have hres : unspsc_last rows html = some ((pyMaxByOrder m ms).f, (pyMaxByOrder m ms).c) := by
        unfold unspsc_last
        rw [hes]
        simp only [List.isEmpty_cons, Bool.false_eq_true, if_false]
        rw [hfe]
      have hlmem : pyMaxByOrder m ms ∈ (e :: rest).filter
          (fun x => decide (x.v = pyMaxVer e.v (rest.map UEntry.v))) := by
        rw [hfe]
        exact hlm
      have hlin : pyMaxByOrder m ms ∈ e :: rest := List.mem_of_mem_filter hlmem
      have hlv : (pyMaxByOrder m ms).v = pyMaxVer e.v (rest.map UEntry.v) := by
        have := (List.mem_filter.mp hlmem).2
        exact of_decide_eq_true this
      refine ⟨pyMaxByOrder m ms, hlin, hres, ?_, ?_⟩
      · intro x hx
        rw [hlv]
        rcases List.mem_cons.mp hx with h1 | h1
        · rw [h1]; exact hgeh
        · exact hget x.v (List.mem_map.mpr ⟨x, h1, rfl⟩)
      · intro x hx hxv
        have hxf : x ∈ (e :: rest).filter
            (fun x => decide (x.v = pyMaxVer e.v (rest.map UEntry.v))) := by
          refine List.mem_filter.mpr ⟨hx, ?_⟩
          rw [hxv, hlv]
          simp
        rw [hfe] at hxf
        exact hlmax x hxf

/-- Witness for C1 at the tie-break scenario of the specification: the
table repeats the maximum version 17.1001 with code 40183103 first and
40183102 last, and both the general theorem and the direct evaluation
give the last occurrence. -/
theorem unspsc_last_picks_last_max_occurrence_inst :
    unspsc_last demoRows [] = some ("UNSPSC (17.1001)".data, "40183102".data) ∧
    (∃ e ∈ tableEntries demoRows,
      unspsc_last demoRows [] = some (e.f, e.c) ∧
      (∀ x ∈ tableEntries demoRows, verLt e.v x.v = false) ∧
      (∀ x ∈ tableEntries demoRows, x.v = e.v → x.order ≤ e.order)) :=
  ⟨by decide, unspsc_last_picks_last_max_occurrence demoRows [] (by decide)⟩

/-- C2: a version string that is a dot-separated sequence of integers
parses to the tuple of those integers, and the maximum version is
selected by lexicographic tuple comparison: the selected tuple is one of
the candidates and no candidate is lexicographically greater. -/
theorem parse_version_and_lex_max (ss : List Str) (hne : ss ≠ [])
    (hdig : ∀ s ∈ ss, ¬ s = [] ∧ s.all isDigitC = true) :
    parse_version (intercalateDot ss) = ss.map digitsToNat ∧
    ∀ (h : List Nat) (t : List (List Nat)),
      (pyMaxVer h t = h ∨ pyMaxVer h t ∈ t) ∧
      verLt (pyMaxVer h t) h = false ∧ ∀ x ∈ t, verLt (pyMaxVer h t) x = false := by
  constructor
  · have hnd : ∀ s ∈ ss, ∀ c ∈ s, ¬ c = '.' := by
      intro s hs c hc
      have hall := (hdig s hs).2
      have hd : isDigitC c = true := by
        rw [List.all_eq_true] at hall
        exact hall c hc
      intro he
      rw [he] at hd
      exact absurd hd (by decide)
    rw [parse_version, splitDot_intercalate ss hnd hne, mapM_pyIntSeg ss hdig]
  · intro h t
    exact pyMaxVer_spec h t

/-- Witness for C2 at the version strings of the specification: parsing
yields (4,3), (10,0), (17,1001), (17,1) and the lexicographic maximum is
(17,1001). -/
theorem parse_version_and_lex_max_inst :
    parse_version "17.1001".data = [17, 1001] ∧
    parse_version "4.03".data = [4, 3] ∧
    parse_version "10.0".data = [10, 0] ∧
    parse_version "17.1".data = [17, 1] ∧
    pyMaxVer [4, 3] [[10, 0], [17, 1001], [17, 1]] = [17, 1001] := by
  refine ⟨?_, by decide, by decide, by decide, by decide⟩
  have h := (parse_version_and_lex_max ["17".data, "1001".data] (by decide)
    (by decide)).1
  rw [show intercalateDot ["17".data, "1001".data] = "17.1001".data from by decide] at h
  rw [h]
  decide

/-- C3: the extraction loop visits the batch indices 0, 1, ... in
increasing order; an index whose checkpoint already exists is skipped
and none of its URLs is fetched; every other index is processed and
written before the next index is visited; and when the pre-existing
checkpoints hold what processing their batches produces (the resume
scenario: they were written by an earlier run of the same deterministic
pipeline), the final store and the merged output equal those of an
uninterrupted run from an empty store.  The fetch trace lists exactly
the URLs of the not-yet-completed batches, in increasing batch order. -/
theorem extraction_loop_resume (fetch : Str → FetchOutcome) (tmo : Nat) (urls : List Str)
    (bs : Nat) (store0 : Store)
    (hres : ∀ i r, store0 i = some r →
      r = processBatchSeq fetch tmo (i * bs) (sliceBatch urls bs i)) :
    (∀ j, j < numBatches urls.length bs →
      (extractionLoop fetch tmo urls bs store0).1 j =
        some (processBatchSeq fetch tmo (j * bs) (sliceBatch urls bs j))) ∧
    (∀ j, j < numBatches urls.length bs →
      (extractionLoop fetch tmo urls bs store0).1 j =
        (extractionLoop fetch tmo urls bs emptyStore).1 j) ∧
    ((extractionLoop fetch tmo urls bs store0).2 =
      ((List.range (numBatches urls.length bs)).filter
          (fun i => !(store0 i).isSome)).flatMap
        (fun i => batchTrace (sliceBatch urls bs i))) ∧
    loadStore (extractionLoop fetch tmo urls bs store0).1 (numBatches urls.length bs) =
      loadStore (extractionLoop fetch tmo urls bs emptyStore).1 (numBatches urls.length bs) := by
  have hval : ∀ j, j < numBatches urls.length bs →
      (extractionLoop fetch tmo urls bs store0).1 j =
        some (processBatchSeq fetch tmo (j * bs) (sliceBatch urls bs j)) := by
    intro j hj
    rw [extractionLoop, extractionFold_fst]
    by_cases hc : (store0 j).isSome = true
    · rw [if_neg (by simp [hc])]
      cases hs : store0 j with
      | none => rw [hs] at hc; exact absurd hc (by simp)
      | some r => rw [hres j r hs]
    · rw [if_pos ⟨List.mem_range.mpr hj, by revert hc; cases (store0 j).isSome <;> simp⟩]
  have hvale : ∀ j, j < numBatches urls.length bs →
      (extractionLoop fetch tmo urls bs emptyStore).1 j =
        some (processBatchSeq fetch tmo (j * bs) (sliceBatch urls bs j)) := by
    intro j hj
    rw [extractionLoop, extractionFold_fst]
    rw [if_pos ⟨List.mem_range.mpr hj, rfl⟩]
  refine ⟨hval, ?_, ?_, ?_⟩
  · intro j hj
    rw [hval j hj, hvale j hj]
  · rw [extractionLoop, extractionFold_snd]
    rfl
  · rw [loadStore, loadStore]
    refine flatMap_congr_on _ _ _ ?_
    intro i hi
    rw [hval i (List.mem_range.mp hi), hvale i (List.mem_range.mp hi)]

/-- Witness for C3: three valid urls in batches of two, with batch 0
already checkpointed with the content an uninterrupted run would give;
applying the theorem shows batch 1 is written with its processed slice,
batch 0 of the resumed run matches the uninterrupted run, and the trace
skips the completed batch. -/
theorem extraction_loop_resume_inst :
    (extractionLoop (fun _ => FetchOutcome.timeout) 9
        ["http://a".data, "http://b".data, "http://c".data] 2
        (fun i => if i = 0 then
          some (processBatchSeq (fun _ => FetchOutcome.timeout) 9 0
            (sliceBatch ["http://a".data, "http://b".data, "http://c".data] 2 0))
          else none)).1 1 =
      some (processBatchSeq (fun _ => FetchOutcome.timeout) 9 2
        (sliceBatch ["http://a".data, "http://b".data, "http://c".data] 2 1)) :=
  (extraction_loop_resume (fun _ => FetchOutcome.timeout) 9
    ["http://a".data, "http://b".data, "http://c".data] 2 _
    (by
      intro i r h
      by_cases hi : i = 0
      · subst hi
        rw [if_pos rfl] at h
        exact (Option.some_inj.mp h).symm
      · rw [if_neg hi] at h
        exact absurd h (by simp))).1 1 (by decide)

/-- C4: the checkpoint writer serializes to the temporary path and then
atomically replaces the final path: starting from a state where the
final checkpoint file does not exist, every observable filesystem state
has the final path either absent or holding the complete serialized
batch — also when serialization fails and leaves arbitrary partial bytes
at the temporary path — and after a successful write the final path
holds the complete batch. -/
theorem save_batch_to_disk_atomic (fs : FS) (dir pre : Str) (n : Nat) (recs : List Record)
    (serOk : Bool) (junk : Option (List CsvRow))
    (h : fs (checkpointPath dir pre n) = none) :
    (∀ st ∈ save_batch_to_disk_states fs dir pre n recs serOk junk,
      st (checkpointPath dir pre n) = none ∨
      st (checkpointPath dir pre n) = some (serializeBatch recs)) ∧
    (serOk = true →
      (save_batch_to_disk_states fs dir pre n recs serOk junk).getLastD fs
        (checkpointPath dir pre n) = some (serializeBatch recs)) := by
  have hne : tmpPath (checkpointPath dir pre n) ≠ checkpointPath dir pre n := by
    intro he
    have hlen := congrArg List.length he
    rw [tmpPath, List.length_append] at hlen
    simp at hlen
  cases serOk with
  | true =>
    constructor
    · intro st hst
      simp only [save_batch_to_disk_states, if_true] at hst
      simp only [List.mem_cons, List.mem_singleton, List.not_mem_nil, or_false] at hst
      rcases hst with h1 | h1 | h1
      · rw [h1]; left; exact h
      · rw [h1]; left
        simp only [fsWrite]
        rw [if_neg (fun he => hne he.symm)]
        exact h
      · rw [h1]; right
        simp [fsWrite]
    · intro _
      simp [save_batch_to_disk_states, fsWrite, List.getLastD]
  | false =>
    constructor
    · intro st hst
      simp only [save_batch_to_disk_states, Bool.false_eq_true, if_false] at hst
      simp only [List.mem_cons, List.mem_singleton, List.not_mem_nil, or_false] at hst
      rcases hst with h1 | h1
      · rw [h1]; left; exact h
      · rw [h1]; left
        cases junk with
        | none => exact h
        | some j =>
          simp only [fsWrite]
          rw [if_neg (fun he => hne he.symm)]
          exact h
    · intro hco
      exact absurd hco (by simp)

/-- Witness for C4: a successful write of one record batch into an empty
filesystem ends with the final checkpoint path holding the serialized
batch. -/
theorem save_batch_to_disk_atomic_inst :
    (save_batch_to_disk_states (fun _ => none) "checkpoints/abc".data "batch".data 0
        [] true none).getLastD (fun _ => none)
      (checkpointPath "checkpoints/abc".data "batch".data 0) = some (serializeBatch []) :=
  (save_batch_to_disk_atomic (fun _ => none) "checkpoints/abc".data "batch".data 0
    [] true none rfl).2 rfl

/-- C5 counterexample: in Parallel mode the collected batch results are
appended in worker completion order and persisted without any sort, so
with two workers completing in reverse input order the persisted row
sequence is 2, 1 — not sorted by the original row index as the claim
states. -/
theorem parallel_batch_not_sorted_by_row :
    (processBatchParallel (fun _ => FetchOutcome.exn "boom".data) 20 0
        ["http://a".data, "http://b".data] [1, 0]).map Record.row = [2, 1] ∧
    rowsAscending ((processBatchParallel (fun _ => FetchOutcome.exn "boom".data) 20 0
        ["http://a".data, "http://b".data] [1, 0]).map Record.row) = false := by
  decide

/-- C5 as amended: in Parallel mode the records of a batch are persisted
in worker completion order — the row sequence equals the completion
order of the local indices, shifted to absolute 1-based rows — with no
reordering before the checkpoint write; the persisted batch is a
permutation of the sequential batch, every record keeping the row index
derived from its original position. -/
theorem parallel_batch_completion_order (fetch : Str → FetchOutcome) (tmo s : Nat)
    (urls : List Str) (order : List Nat) (h : order.Perm (List.range urls.length)) :
    (processBatchParallel fetch tmo s urls order).map Record.row =
      order.map (fun i => s + i + 1) ∧
    (processBatchParallel fetch tmo s urls order).Perm
      (processBatchSeq fetch tmo s urls) := by
  have hmem : ∀ i ∈ order, i < urls.length := by
    intro i hi
    exact List.mem_range.mp (h.mem_iff.mp hi)
  rw [processBatchParallel_eq fetch tmo s urls order hmem]
  constructor
  · rw [List.map_map]
    refine List.map_congr_left ?_
    intro i _
    simp only [Function.comp_apply]
    rw [extract_row]
  · rw [processBatchSeq_eq]
    exact h.map _

/-- Witness for C5 as amended, with workers finishing in reverse input
order: the persisted rows are 2, 1 and the batch is a permutation of the
sequential one. -/
theorem parallel_batch_completion_order_inst :
    (processBatchParallel (fun _ => FetchOutcome.exn "boom".data) 20 0
        ["http://a".data, "http://b".data] [1, 0]).map Record.row =
      [1, 0].map (fun i => 0 + i + 1) ∧
    (processBatchParallel (fun _ => FetchOutcome.exn "boom".data) 20 0
        ["http://a".data, "http://b".data] [1, 0]).Perm
      (processBatchSeq (fun _ => FetchOutcome.exn "boom".data) 20 0
        ["http://a".data, "http://b".data]) :=
  parallel_batch_completion_order (fun _ => FetchOutcome.exn "boom".data) 20 0
    ["http://a".data, "http://b".data] [1, 0] (by decide)

/-- C6 counterexample: a generic exception whose message is empty
produces a completed record with Status Error but an empty Error field,
so not every non-Success path carries a populated diagnostic. -/
theorem extract_error_empty_diagnostic :
    (extract (fun _ => FetchOutcome.exn []) 20 (some "http://x".data) 1).status =
      "Error".data ∧
    (extract (fun _ => FetchOutcome.exn []) 20 (some "http://x".data) 1).err = [] := by
  decide

/-- C6 as amended: for every input URL (None, empty, malformed, and
every fetch outcome) extract returns a completed record whose Status is
drawn from Success, Invalid URL, HTTP code, Timeout, Error; on the
Invalid URL, HTTP and Timeout paths the Error diagnostic is non-empty;
and on the generic Error path the diagnostic is the exception message
truncated to 200 characters — bounded, but empty when the message is
empty. -/
theorem extract_status_taxonomy (fetch : Str → FetchOutcome) (tmo : Nat)
    (url : Option Str) (n : Nat) :
    ((extract fetch tmo url n).status = "Success".data ∨
     (extract fetch tmo url n).status = "Invalid URL".data ∨
     (∃ code, (extract fetch tmo url n).status = "HTTP ".data ++ natToStr code) ∨
     (extract fetch tmo url n).status = "Timeout".data ∨
     (extract fetch tmo url n).status = "Error".data) ∧
    ((extract fetch tmo url n).status ≠ "Success".data →
     (extract fetch tmo url n).status ≠ "Error".data →
     (extract fetch tmo url n).err.isEmpty = false) ∧
    ((extract fetch tmo url n).status = "Error".data →
     (extract fetch tmo url n).err.length ≤ 200) := by
  cases url with
  | none =>
    refine ⟨Or.inr (Or.inl rfl), fun _ _ => rfl, fun hco =>
      absurd (show "Invalid URL".data = "Error".data from hco) (by decide)⟩
  | some u =>
    by_cases hv : urlInvalid (some u) = true
    · have hrec : extract fetch tmo (some u) n =
          { row := n, part := "Not Found".data, company := "Swagelok".data,
            url := if u.isEmpty then "Empty".data else u,
            feat := "Not Found".data, code := "Not Found".data,
            status := "Invalid URL".data, err := "URL is empty or invalid".data } := by
        simp [extract, hv]
      rw [hrec]
      refine ⟨Or.inr (Or.inl rfl), fun _ _ => rfl, fun hco =>
        absurd (show "Invalid URL".data = "Error".data from hco) (by decide)⟩
    · cases hf : fetch u with
      | timeout =>
        have hrec : extract fetch tmo (some u) n =
            { row := n, part := "Not Found".data, company := "Swagelok".data,
              url := if u.isEmpty then "Empty".data else u,
              feat := "Not Found".data, code := "Not Found".data,
              status := "Timeout".data,
              err := "Timeout after ".data ++ natToStr tmo ++ "s".data } := by
          simp [extract, hv, hf]
        rw [hrec]
        exact ⟨Or.inr (Or.inr (Or.inr (Or.inl rfl))), fun _ _ => rfl,
          fun hco => absurd (show "Timeout".data = "Error".data from hco) (by decide)⟩
      | exn m =>
        have hrec : extract fetch tmo (some u) n =
            { row := n, part := "Not Found".data, company := "Swagelok".data,
              url := if u.isEmpty then "Empty".data else u,
              feat := "Not Found".data, code := "Not Found".data,
              status := "Error".data, err := m.take 200 } := by
          simp [extract, hv, hf]
        rw [hrec]
        refine ⟨Or.inr (Or.inr (Or.inr (Or.inr rfl))), fun _ hco => absurd rfl hco,
          fun _ => ?_⟩
        rw [List.length_take]
        exact min_le_left _ _
      | ok st rows body =>
        by_cases hst : st = 200
        · subst hst
          have hsucc : (extract fetch tmo (some u) n).status = "Success".data := by
            simp only [extract, hv, Bool.false_eq_true, if_false, hf]
            rw [if_neg (by simp)]
            rw [applyUnspsc_status, applyPart_status]
          refine ⟨Or.inl hsucc, fun hco _ => absurd hsucc hco, fun hco => ?_⟩
          rw [hsucc] at hco
          exact absurd hco (by decide)
        · have hrec : extract fetch tmo (some u) n =
              { row := n, part := "Not Found".data, company := "Swagelok".data,
                url := if u.isEmpty then "Empty".data else u,
                feat := "Not Found".data, code := "Not Found".data,
                status := "HTTP ".data ++ natToStr st,
                err := "Status ".data ++ natToStr st } := by
            simp [extract, hv, hf, hst]
          rw [hrec]
          refine ⟨Or.inr (Or.inr (Or.inl ⟨st, rfl⟩)), fun _ _ => rfl, fun hco => ?_⟩
          exact absurd (show ('H' : Char) = 'E' from
            congrArg (fun l => l.headD 'x') hco) (by decide)

/-- Witness for C6 as amended: a timeout outcome yields a non-Success,
non-Error status, whose diagnostic the theorem shows to be populated. -/
theorem extract_status_taxonomy_inst :
    (extract (fun _ => FetchOutcome.timeout) 20 (some "http://x".data) 1).err.isEmpty =
      false :=
  (extract_status_taxonomy (fun _ => FetchOutcome.timeout) 20 (some "http://x".data) 1).2.1
    (by decide) (by decide)

/-- C7 counterexample: in the checkpointed pipeline of up_app.py, the
blank cell of the scenario list is filtered out before batching — the
run produces only two records (for rows 1 and 3 of the input), so no
record with Status Invalid URL exists for the blank row, contrary to the
claim. -/
theorem blank_cells_dropped_counterexample :
    validUrls [some "https://site/p/AB-12".data, some "".data,
        some "https://site/p/CD-34".data] =
      ["https://site/p/AB-12".data, "https://site/p/CD-34".data] ∧
    (processBatchSeq (fun _ => FetchOutcome.ok 404 [] []) 20 0
        (validUrls [some "https://site/p/AB-12".data, some "".data,
          some "https://site/p/CD-34".data])).map Record.status =
      ["HTTP 404".data, "HTTP 404".data] := by
  decide

/-- C7 as amended: a blank or whitespace-only cell never reaches the
Page Fetcher, but the two revisions differ on the record: the
checkpointed up_app.py pipeline removes the cell from the valid-url list
before batching, so the blank row produces no record at all, while the
sequential Last_app.py pipeline gives every url failing the http test (a
blank cell arrives as the string nan) a record with Status Invalid URL,
Part and UNSPSC Not Found, and no fetch call. -/
theorem blank_cell_handling :
    (∀ (xs ys : List (Option Str)) (b : Option Str), cellToUrl b = none →
      validUrls (xs ++ b :: ys) = validUrls (xs ++ ys)) ∧
    (∀ (fetch : Str → FetchOutcome) (url : Str),
      url.isEmpty = true ∨ startsWithL "http".data (url.map toLowerA) = false →
      lastProcessRow fetch url =
        ({ part := "Not Found".data, feat := "Not Found".data, code := "Not Found".data,
           status := "Invalid URL".data, err := "Empty or invalid URL".data }, [])) := by
  constructor
  · intro xs ys b hb
    have heq : ∀ (cells : List (Option Str)), validUrls cells = cells.filterMap cellToUrl := by
      intro cells
      rw [validUrls, urlsAll, List.filterMap_map]
      rfl
    rw [heq, heq, List.filterMap_append, List.filterMap_append, List.filterMap_cons, hb]
  · intro fetch url hurl
    rcases hurl with h | h
    · simp [lastProcessRow, h]
    · simp [lastProcessRow, h]

/-- Witness for C7 as amended: the blank cell reaches Last_app as the
string nan and resolves to an Invalid URL record with no fetch call. -/
theorem blank_cell_handling_inst :
    lastProcessRow (fun _ => FetchOutcome.timeout) "nan".data =
      ({ part := "Not Found".data, feat := "Not Found".data, code := "Not Found".data,
         status := "Invalid URL".data, err := "Empty or invalid URL".data }, []) :=
  blank_cell_handling.2 (fun _ => FetchOutcome.timeout) "nan".data (Or.inr (by decide))

/-- C8 counterexample: the candidate utf has length in [2,100] and
satisfies the letter/digit policy, yet the validator rejects it because
of the denylist, so satisfying the letter/digit policy at an admissible
length is not sufficient for acceptance. -/
theorem vp_letter_digit_policy_not_sufficient :
    (2 ≤ "utf".data.length ∧ "utf".data.length ≤ 100 ∧
      letterDigitPolicy "utf".data = true) ∧
    vp "utf".data = false := by
  decide

/-- C8 as amended: the validator rejects every candidate of length one;
it accepts a candidate of length 2 through 100 that satisfies the
letter/digit policy and contains none of the denylisted substrings
(charset, utf, html, http, www, text) in its lower-cased form; and a
candidate containing charset is always rejected, whatever its other
properties. -/
theorem vp_boundary_characterization :
    (∀ p : Str, p.length = 1 → vp p = false) ∧
    (∀ p : Str, 2 ≤ p.length → p.length ≤ 100 → letterDigitPolicy p = true →
      (∀ ex ∈ excludesVP, containsSub ex (p.map toLowerA) = false) → vp p = true) ∧
    (∀ p : Str, containsSub "charset".data p = true → vp p = false) := by
  refine ⟨?_, ?_, ?_⟩
  · intro p h
    rw [vp]
    rw [if_pos ?_]
    rw [h]
    decide
  · intro p h2 h100 hld hex
    rw [vp]
    rw [if_neg ?_, if_neg ?_]
    · have hany : (excludesVP.any fun ex => containsSub ex (p.map toLowerA)) = false := by
        rw [List.any_eq_false]
        intro ex hexm
        rw [hex ex hexm]
        simp
      rw [hany]
      rfl
    · rw [hld]
      simp
    · simp [h2, h100]
  · intro p hcs
    have hlow : containsSub "charset".data (p.map toLowerA) = true := by
      have hm := containsSub_map toLowerA "charset".data p hcs
      rwa [show ("charset".data).map toLowerA = "charset".data from by decide] at hm
    rw [vp]
    by_cases hc1 : (!(decide (2 ≤ p.length) && decide (p.length ≤ 100))) = true
    · rw [if_pos hc1]
    · rw [if_neg hc1]
      by_cases hc2 : (!letterDigitPolicy p) = true
      · rw [if_pos hc2]
      · rw [if_neg hc2]
        simp [excludesVP, List.any_cons, hlow]

/-- Witness for C8 as amended: a one-character candidate is rejected, a
typical part number is accepted, and a candidate containing charset is
rejected despite valid length and letters. -/
theorem vp_boundary_characterization_inst :
    vp "A".data = false ∧ vp "SS-4-TA".data = true ∧ vp "XXcharsetYY-1".data = false :=
  ⟨vp_boundary_characterization.1 "A".data (by decide),
   vp_boundary_characterization.2.1 "SS-4-TA".data (by decide) (by decide) (by decide)
     (by decide),
   vp_boundary_characterization.2.2 "XXcharsetYY-1".data (by decide)⟩

/-- C9: list_completed_batches returns exactly the batch indices whose
matching checkpoint file names parse to an index; and when every
matching name parses (the names the store itself writes),
load_all_batches succeeds and concatenates the readable checkpoints in
ascending batch-index order — a file whose content cannot be read is
skipped, the readable rest is still returned, and the loader does not
fail. -/
theorem checkpoint_recovery_listing (dir : DirList)
    (hp : ∀ e ∈ dir.filter (fun e => globMatch e.1), (parseIdxName e.1).isSome = true) :
    (∀ i, i ∈ list_completed_batches dir ↔
      ∃ e ∈ dir, globMatch e.1 = true ∧ parseIdxName e.1 = some i) ∧
    (∃ fs, fs.Perm (dir.filter (fun e => globMatch e.1)) ∧
      List.Chain' (fun a b => fileKey a ≤ fileKey b) fs ∧
      load_all_batches dir = some ((fs.filterMap Prod.snd).flatten)) ∧
    (load_all_batches dir).isSome = true := by
  have hall : (List.all (dir.filter fun e => globMatch e.1)
      fun e => (parseIdxName e.1).isSome) = true := by
    rw [List.all_eq_true]
    exact hp
  have hload : load_all_batches dir =
      some (((insSortBy (fun a b => decide (fileKey a ≤ fileKey b))
        (dir.filter fun e => globMatch e.1)).filterMap Prod.snd).flatten) := by
    rw [load_all_batches]
    rw [if_pos hall]
  refine ⟨?_, ⟨insSortBy (fun a b => decide (fileKey a ≤ fileKey b))
      (dir.filter fun e => globMatch e.1), insSortBy_perm _ _, ?_, hload⟩, ?_⟩
  · intro i
    simp only [list_completed_batches, List.mem_filterMap]
    constructor
    · rintro ⟨e, he, hei⟩
      by_cases hg : globMatch e.1 = true
      · rw [if_pos hg] at hei
        exact ⟨e, he, hg, hei⟩
      · rw [if_neg hg] at hei
        cases hei
    · rintro ⟨e, he, hg, hei⟩
      refine ⟨e, he, ?_⟩
      rw [if_pos hg]
      exact hei
  · have hch := insSortBy_chain (fun a b => decide (fileKey a ≤ fileKey b))
      (fun a b => by
        rcases Nat.le_total (fileKey a) (fileKey b) with h | h
        · left; exact decide_eq_true h
        · right; exact decide_eq_true h)
      (dir.filter fun e => globMatch e.1)
    exact hch.imp (fun a b hr => of_decide_eq_true hr)
  · rw [hload]
    rfl

/-- Witness for C9 at a directory holding checkpoints 0, 2 (readable), 1
(corrupt) and an unrelated file: the loader succeeds. -/
theorem checkpoint_recovery_listing_inst :
    (load_all_batches [("batch_2.csv".data, some [["b".data]]),
      ("batch_0.csv".data, some [["a".data]]),
      ("batch_1.csv".data, none),
      ("notes.txt".data, some [["z".data]])]).isSome = true :=
  (checkpoint_recovery_listing
    [("batch_2.csv".data, some [["b".data]]),
     ("batch_0.csv".data, some [["a".data]]),
     ("batch_1.csv".data, none),
     ("notes.txt".data, some [["z".data]])] (by decide)).2.2

/-- C10: on a 200 fetch where the part or the UNSPSC pair cannot be
resolved, extract keeps Status Success while writing Part not found,
UNSPSC not found, or both joined by a semicolon into the Error field —
so a non-empty Error does not imply a non-Success Status, and Error
emptiness is not a success test. -/
theorem extract_success_with_error_field (fetch : Str → FetchOutcome) (tmo n : Nat)
    (u : Str) (rows : List (List Str)) (body : Str)
    (hv : urlInvalid (some u) = false)
    (hf : fetch u = FetchOutcome.ok 200 rows body) :
    (extract fetch tmo (some u) n).status = "Success".data ∧
    (extract fetch tmo (some u) n).err =
      (if partFoundB body u then
        (if unspscFoundB rows body then [] else "UNSPSC not found".data)
       else
        (if unspscFoundB rows body then "Part not found".data
         else "Part not found;UNSPSC not found".data)) ∧
    ((partFoundB body u = false ∨ unspscFoundB rows body = false) →
      (extract fetch tmo (some u) n).err.isEmpty = false) := by
  have hvne : ¬ urlInvalid (some u) = true := by
    rw [hv]
    simp
  have hred : extract fetch tmo (some u) n =
      applyUnspsc (applyPart
        { row := n, part := "Not Found".data, company := "Swagelok".data,
          url := if u.isEmpty then "Empty".data else u,
          feat := "Not Found".data, code := "Not Found".data,
          status := "Success".data, err := [] }
        (part_resolve body u)) (unspsc_last rows body) := by
    simp only [extract, hv, Bool.false_eq_true, if_false, hf]
    rw [if_neg (by simp)]
  have hstat : (extract fetch tmo (some u) n).status = "Success".data := by
    rw [hred, applyUnspsc_status, applyPart_status]
  have herr : (extract fetch tmo (some u) n).err =
      (if partFoundB body u then
        (if unspscFoundB rows body then [] else "UNSPSC not found".data)
       else
        (if unspscFoundB rows body then "Part not found".data
         else "Part not found;UNSPSC not found".data)) := by
    rw [hred, applyUnspsc_err, applyPart_err _ _ rfl]
    rw [partFoundB, unspscFoundB]
    cases hpo : truthyOpt (part_resolve body u) with
    | true =>
      cases huo : truthyPair (unspsc_last rows body) with
      | true => rfl
      | false => rfl
    | false =>
      cases huo : truthyPair (unspsc_last rows body) with
      | true => rfl
      | false => rfl
  refine ⟨hstat, herr, ?_⟩
  intro hmiss
  rw [herr]
  rcases hmiss with h | h
  · rw [h]
    cases hub : unspscFoundB rows body <;> simp
  · rw [h]
    cases hpb : partFoundB body u <;> simp

/-- Witness for C10: a 200 page with no part pattern and no UNSPSC table
yields Status Success with both diagnostics joined in the Error field. -/
theorem extract_success_with_error_field_inst :
    (extract (fun _ => FetchOutcome.ok 200 [] "hello".data) 20
        (some "http://x".data) 1).status = "Success".data ∧
    (extract (fun _ => FetchOutcome.ok 200 [] "hello".data) 20
        (some "http://x".data) 1).err.isEmpty = false :=
  ⟨(extract_success_with_error_field (fun _ => FetchOutcome.ok 200 [] "hello".data) 20 1
      "http://x".data [] "hello".data (by decide) rfl).1,
   (extract_success_with_error_field (fun _ => FetchOutcome.ok 200 [] "hello".data) 20 1
      "http://x".data [] "hello".data (by decide) rfl).2.2 (Or.inl (by decide))⟩

end Swagelok
